import Mathlib

/-!
Verification of the tide-route-builder core: a shallow embedding of the
route-tree builder, the flattener, the reverse router, and the
`Router` trait implementation for `tide::Server` (src/router.rs),
with theorems checking the specification's claims.

Endpoints and middleware are opaque handlers at run time; the embedding
identifies them by numeric ids, which is faithful because the code never
inspects them, it only moves them around.
-/

namespace TideRoutes

/-! ## Path model

Modelled from the spec: `src/path.rs` is not present in the sources; the
spec describes a path fragment as an ordered sequence of components,
obtained by splitting on the separator and dropping empty components,
rendered back as an absolute path that always begins with the separator.
A component is a separator-free run of characters. -/

/-- A single path component, as a character list. -/
abbrev Component := List Char

/-- Split a character list on the separator character. -/
def splitSlash : List Char → List (List Char)
  | [] => [[]]
  | c :: rest =>
    if c = '/' then [] :: splitSlash rest
    else
      match splitSlash rest with
      | [] => [[c]]
      | p :: ps => (c :: p) :: ps

/-- Parse a raw fragment string into its nonempty components. -/
def parseFrag (s : List Char) : List Component :=
  (splitSlash s).filter (fun c => c ≠ [])

/-- Join an already-parsed base fragment with a raw fragment string. -/
def joinFrag (base : List Component) (s : List Char) : List Component :=
  base ++ parseFrag s

/-- Interleave the separator between components. -/
def joinSep : List Component → List Char
  | [] => []
  | [c] => c
  | c :: c2 :: cs => c ++ '/' :: joinSep (c2 :: cs)

/-- Render a parsed fragment as an absolute path, character level. -/
def renderChars (p : List Component) : List Char :=
  '/' :: joinSep p

/-- Render a parsed fragment as an absolute path string. -/
def render (p : List Component) : String :=
  ⟨renderChars p⟩

/-! ## HTTP methods and errors -/

/-- The HTTP verbs of the host framework. -/
inductive Method where
  | get | post | put | delete | head | options | connect | patch | trace
deriving DecidableEq, Repr

/-- Construction-time and reverse-routing errors.

Modelled from the spec: the error taxonomy of §7 (duplicate route name,
unknown route name in reverse lookup, missing placeholder parameter). -/
inductive RouteError where
  | duplicateName (name : String)
  | unknownRoute (name : String)
  | missingParameter (key : String)
deriving DecidableEq, Repr

/-! ## Route tree and flattener

Modelled from the spec: `src/routesegment.rs` is not present in the
sources.  A node holds its own path fragment, its own middleware, its
method → endpoint bindings in declaration order, an optional catch-all
endpoint, and its children in declaration order (§3, §4.2).  The
flattener is the depth-first pre-order walk of §4.3. -/

/-- A node of the route tree. -/
inductive RouteSegment : Type where
  | node (fragment : List Component) (middleware : List Nat)
      (endpoints : List (Method × Nat)) (catchAll : Option Nat)
      (children : List RouteSegment)
deriving Repr

/-- The node's own path fragment, relative to its parent. -/
def RouteSegment.fragment : RouteSegment → List Component
  | .node f _ _ _ _ => f

/-- The node's own middleware, in declaration order. -/
def RouteSegment.middleware : RouteSegment → List Nat
  | .node _ mw _ _ _ => mw

/-- The node's method → endpoint bindings, in declaration order. -/
def RouteSegment.endpoints : RouteSegment → List (Method × Nat)
  | .node _ _ eps _ _ => eps

/-- The node's optional catch-all endpoint. -/
def RouteSegment.catchAll : RouteSegment → Option Nat
  | .node _ _ _ ca _ => ca

/-- The node's children, in declaration order. -/
def RouteSegment.children : RouteSegment → List RouteSegment
  | .node _ _ _ _ ch => ch

/-- One flattened registration record: absolute path, optional method
(`none` = catch-all), accumulated middleware chain, endpoint. -/
structure EndpointDescriptor where
  path : String
  method : Option Method
  middleware : List Nat
  endpoint : Nat
deriving DecidableEq, Repr

/-- Depth-first pre-order flattening with accumulated path and middleware:
at each node emit one descriptor per bound verb, then the catch-all if
set, then recurse into the children in declaration order. -/
def flattenFrom (acc : List Component) (mws : List Nat) : RouteSegment → List EndpointDescriptor
  | .node frag own eps ca children =>
    (eps.map fun me => EndpointDescriptor.mk (render (acc ++ frag)) (some me.1) (mws ++ own) me.2)
      ++ (ca.toList.map fun e => EndpointDescriptor.mk (render (acc ++ frag)) none (mws ++ own) e)
      ++ (children.attach.map fun c => flattenFrom (acc ++ frag) (mws ++ own) c.1).flatten
termination_by n => sizeOf n
decreasing_by
  simp_wf
  have h := List.sizeOf_lt_of_mem c.2
  omega

/-- Flatten a whole tree from the root. -/
def RouteSegment.build (n : RouteSegment) : List EndpointDescriptor :=
  flattenFrom [] [] n

/-! ## Fluent construction surface

Modelled from the spec: `src/routebuilder.rs` is not present in the
sources.  Each fluent call on a node returns a `Result`-wrapped node
(§4.2), and the crate also lets fluent calls chain directly on a
`Result`, short-circuiting on the first error (crate doc examples and
the unit tests, which write `root().get(h).post(h).unwrap()`). -/

/-- The result of one fluent construction step. -/
abbrev BuildResult := Except RouteError RouteSegment

/-- The root constructor: an empty node whose rendered path is `"/"`. -/
def root : RouteSegment :=
  .node [] [] [] none []

/-- Bind a verb at a node, keeping methods unique per node. -/
def insertVerb : List (Method × Nat) → Method → Nat → List (Method × Nat)
  | [], m, ep => [(m, ep)]
  | (m', e') :: rest, m, ep =>
    if m' = m then (m, ep) :: rest else (m', e') :: insertVerb rest m ep

/-- `method(verb, endpoint)`: bind `endpoint` to `verb` at this node. -/
def RouteSegment.method : RouteSegment → Method → Nat → BuildResult
  | .node f mw eps ca ch, m, ep => .ok (.node f mw (insertVerb eps m ep) ca ch)

/-- `get(endpoint)`. -/
def RouteSegment.get (n : RouteSegment) (ep : Nat) : BuildResult :=
  n.method .get ep

/-- `post(endpoint)`. -/
def RouteSegment.post (n : RouteSegment) (ep : Nat) : BuildResult :=
  n.method .post ep

/-- `put(endpoint)`. -/
def RouteSegment.put (n : RouteSegment) (ep : Nat) : BuildResult :=
  n.method .put ep

/-- `delete(endpoint)`. -/
def RouteSegment.delete (n : RouteSegment) (ep : Nat) : BuildResult :=
  n.method .delete ep

/-- `all(endpoint)`: set the catch-all endpoint for this node. -/
def RouteSegment.all (n : RouteSegment) (ep : Nat) : BuildResult :=
  match n with
  | .node f mw eps _ ch => .ok (.node f mw eps (some ep) ch)

/-- The `RouteBuilder` implementation on `Result`: a further fluent call
on an already-failed chain keeps the error; on a success it applies. -/
def liftBuild (op : RouteSegment → BuildResult) : BuildResult → BuildResult
  | .ok r => op r
  | .error e => .error e

/-- Apply a whole chain of fluent calls, left to right. -/
def applyChain (ops : List (RouteSegment → BuildResult)) (r : BuildResult) : BuildResult :=
  ops.foldl (fun acc op => liftBuild op acc) r

/-! ## The Router trait and its tide::Server implementation (src/router.rs)

The host framework's routing table is modelled as an association list
from `(path, optional verb)` to an endpoint id, most recent binding
first; `route.method(verb, ep)` and `route.all(ep)` each install one
binding.  `Server::at(path)` alone installs nothing. -/

/-- One installed binding: `(path, some verb)` or `(path, none)` for the
catch-all, mapped to an endpoint id. -/
abbrev Server := List ((String × Option Method) × Nat)

/-- Install one binding into the host routing table. -/
def install (s : Server) (path : String) (key : Option Method) (ep : Nat) : Server :=
  ((path, key), ep) :: s

/-- Look up the binding for a `(path, key)` pair, most recent first. -/
def lookupBinding : Server → String → Option Method → Option Nat
  | [], _, _ => none
  | ((p', k'), ep) :: rest, p, k =>
    if p' = p ∧ k' = k then some ep else lookupBinding rest p k

/-- `Router::register_endpoint` as implemented for `tide::Server`
(src/router.rs lines 29-45): the middleware argument is received but
ignored (`_middleware`; the wrapping line is commented out), then the
endpoint is installed for the given verb, or as the catch-all when the
method is `none`. -/
def registerEndpoint (s : Server) (path : String) (method : Option Method)
    (mw : List Nat) (ep : Nat) : Server :=
  let _ := mw
  match method with
  | some m => install s path (some m) ep
  | none => install s path none ep

/-- The provided `Router::register` (src/router.rs lines 22-27): flatten
the builder and hand every descriptor to `register_endpoint`, in order. -/
def registerRoutes (s : Server) (builder : RouteSegment) : Server :=
  builder.build.foldl
    (fun s d => registerEndpoint s d.path d.method d.middleware d.endpoint) s

/-! ## Reverse router

Modelled from the spec: `src/reverse_router.rs` is not present in the
sources.  An index from route name to path template (§3, §4.4);
`register` fails on a duplicate name, `url_for` substitutes parameters
into the template, failing on an unknown name or a missing parameter. -/

/-- A template component: a literal, or a named parameter placeholder. -/
inductive TComponent where
  | literal (s : String)
  | param (key : String)
deriving DecidableEq, Repr

/-- A path template: the sequence of components of a route's path. -/
abbrev Template := List TComponent

/-- The placeholder names a template requires, in template order. -/
def placeholdersOf (t : Template) : List String :=
  t.filterMap fun c =>
    match c with
    | .param k => some k
    | .literal _ => none

/-- The reverse-routing index: route name to template, in registration
order. -/
abbrev ReverseRouter := List (String × Template)

/-- Find the template registered under a name, most recent first. -/
def lookupName : ReverseRouter → String → Option Template
  | [], _ => none
  | (n', t) :: rest, n => if n' = n then some t else lookupName rest n

/-- A parameter map for reverse routing: keys to substitution values. -/
abbrev Params := List (String × String)

/-- Find the value bound to a parameter key. -/
def lookupParam : Params → String → Option String
  | [], _ => none
  | (k', v) :: rest, k => if k' = k then some v else lookupParam rest k

/-- `register(name, template)`: fails with `DuplicateNameError` when the
name is already registered; never overwrites. -/
def registerName (rr : ReverseRouter) (name : String) (t : Template) :
    Except RouteError ReverseRouter :=
  match lookupName rr name with
  | some _ => .error (.duplicateName name)
  | none => .ok ((name, t) :: rr)

/-- Walk the template's components, substituting each placeholder from
`params` and failing with `MissingParameterError` on the first absent
key. -/
def substComponents (params : Params) : Template →
    Except RouteError (List String)
  | [] => .ok []
  | .literal s :: rest => (substComponents params rest).map (s :: ·)
  | .param k :: rest =>
    match lookupParam params k with
    | none => .error (.missingParameter k)
    | some v => (substComponents params rest).map (v :: ·)

/-- `url_for(name, params)`: look the template up and substitute. -/
def urlFor (rr : ReverseRouter) (name : String) (params : Params) :
    Except RouteError String :=
  match lookupName rr name with
  | none => .error (.unknownRoute name)
  | some t =>
    (substComponents params t).map fun comps => "/" ++ String.intercalate "/" comps

/-! ## Basic lemmas -/

theorem attach_map_fst {α β : Type _} (l : List α) (g : α → β) :
    (l.attach.map fun c => g c.1) = l.map g := by
  exact List.attach_map_val l g

/-- The flattener's recurrence, with the `attach` plumbing removed. -/
theorem flattenFrom_node (acc : List Component) (mws : List Nat)
    (f : List Component) (own : List Nat) (eps : List (Method × Nat))
    (ca : Option Nat) (ch : List RouteSegment) :
    flattenFrom acc mws (.node f own eps ca ch) =
      (eps.map fun me => EndpointDescriptor.mk (render (acc ++ f)) (some me.1) (mws ++ own) me.2)
      ++ (ca.toList.map fun e => EndpointDescriptor.mk (render (acc ++ f)) none (mws ++ own) e)
      ++ (ch.map (flattenFrom (acc ++ f) (mws ++ own))).flatten := by
  rw [flattenFrom, attach_map_fst]

/-- `register_endpoint` on `tide::Server` conses exactly one binding. -/
theorem registerEndpoint_eq (s : Server) (p : String) (m : Option Method)
    (mw : List Nat) (ep : Nat) :
    registerEndpoint s p m mw ep = ((p, m), ep) :: s := by
  cases m <;> rfl

/-- Folding `register_endpoint` over a descriptor list conses one binding
per descriptor. -/
theorem foldl_registerEndpoint (l : List EndpointDescriptor) (s : Server) :
    l.foldl (fun s d => registerEndpoint s d.path d.method d.middleware d.endpoint) s
      = (l.map fun d => ((d.path, d.method), d.endpoint)).reverse ++ s := by
  induction l generalizing s with
  | nil => simp
  | cons d rest ih =>
    rw [List.foldl_cons, ih, registerEndpoint_eq]
    simp

/-! ## Claim theorems: the Router implementation (src/router.rs) -/

/-- C1, code-bug evidence: the registration installed by the
`tide::Server` implementation of `register_endpoint` is entirely
independent of the middleware argument — the parameter is received as
`_middleware` and never used, so the descriptor's middleware chain is
not wrapped around the endpoint, contrary to the spec. -/
theorem registerEndpoint_ignores_middleware (s : Server) (p : String)
    (m : Option Method) (mw mw' : List Nat) (ep : Nat) :
    registerEndpoint s p m mw ep = registerEndpoint s p m mw' ep := by
  rw [registerEndpoint_eq, registerEndpoint_eq]

/-- C2: `register_endpoint` with `some verb` installs the endpoint for
exactly that verb at the descriptor's path, and with `none` installs it
as the catch-all at that path; every other `(path, key)` pair resolves
as before. -/
theorem registerEndpoint_selects_verb (s : Server) (p : String)
    (v : Method) (mw : List Nat) (ep : Nat) :
    lookupBinding (registerEndpoint s p (some v) mw ep) p (some v) = some ep
    ∧ lookupBinding (registerEndpoint s p none mw ep) p none = some ep
    ∧ (∀ p' k', ¬(p' = p ∧ k' = some v) →
        lookupBinding (registerEndpoint s p (some v) mw ep) p' k' = lookupBinding s p' k')
    ∧ (∀ p' k', ¬(p' = p ∧ k' = none) →
        lookupBinding (registerEndpoint s p none mw ep) p' k' = lookupBinding s p' k') := by
  refine ⟨?_, ?_, ?_, ?_⟩
  · rw [registerEndpoint_eq]
    simp [lookupBinding]
  · rw [registerEndpoint_eq]
    simp [lookupBinding]
  · intro p' k' h
    rw [registerEndpoint_eq]
    simp only [lookupBinding]
    rw [if_neg]
    rintro ⟨h1, h2⟩
    exact h ⟨h1.symm, h2.symm⟩
  · intro p' k' h
    rw [registerEndpoint_eq]
    simp only [lookupBinding]
    rw [if_neg]
    rintro ⟨h1, h2⟩
    exact h ⟨h1.symm, h2.symm⟩

/-- C2, witness: concrete instance of `registerEndpoint_selects_verb`. -/
theorem registerEndpoint_selects_verb_witness :
    lookupBinding (registerEndpoint [] "/a" (some .get) [3] 7) "/a" (some .get) = some 7
    ∧ lookupBinding (registerEndpoint [] "/a" (some .get) [3] 7) "/b" none
        = lookupBinding [] "/b" none := by
  have h := registerEndpoint_selects_verb [] "/a" .get [3] 7
  exact ⟨h.1, h.2.2.1 "/b" none (by simp)⟩

/-- C10: each `register_endpoint` call installs exactly one binding, at
exactly the given path and key, and leaves the lookup of every other
`(path, key)` pair unchanged. -/
theorem registerEndpoint_frame (s : Server) (p : String) (m : Option Method)
    (mw : List Nat) (ep : Nat) :
    registerEndpoint s p m mw ep = ((p, m), ep) :: s
    ∧ (registerEndpoint s p m mw ep).length = s.length + 1
    ∧ (∀ p' k', ¬(p' = p ∧ k' = m) →
        lookupBinding (registerEndpoint s p m mw ep) p' k' = lookupBinding s p' k') := by
  refine ⟨registerEndpoint_eq s p m mw ep, ?_, ?_⟩
  · rw [registerEndpoint_eq]
    simp
  · intro p' k' h
    rw [registerEndpoint_eq]
    simp only [lookupBinding]
    rw [if_neg]
    rintro ⟨h1, h2⟩
    exact h ⟨h1.symm, h2.symm⟩

/-- C10, witness: concrete instance of `registerEndpoint_frame`. -/
theorem registerEndpoint_frame_witness :
    registerEndpoint [(("/b", none), 9)] "/a" (some .put) [] 7
        = (("/a", some .put), 7) :: [(("/b", none), 9)]
    ∧ lookupBinding (registerEndpoint [(("/b", none), 9)] "/a" (some .put) [] 7) "/b" none
        = lookupBinding [(("/b", none), 9)] "/b" none := by
  have h := registerEndpoint_frame [(("/b", none), 9)] "/a" (some .put) [] 7
  exact ⟨h.1, h.2.2 "/b" none (by simp)⟩

/-- C3: the default `Router::register` hands every descriptor of
`build()` to `register_endpoint`, once each and in order: the resulting
table is exactly the descriptor sequence mapped to bindings (most recent
first) on top of the previous table, and its size grows by exactly the
number of descriptors. -/
theorem register_installs_descriptors_in_order (s : Server) (b : RouteSegment) :
    registerRoutes s b
      = (b.build.map fun d => ((d.path, d.method), d.endpoint)).reverse ++ s
    ∧ (registerRoutes s b).length = b.build.length + s.length := by
  have h := foldl_registerEndpoint b.build s
  refine ⟨h, ?_⟩
  rw [registerRoutes, h]
  simp

/-! ## Claim theorems: fluent chaining and the concrete root scenario -/

/-- A fluent chain applied to an already-failed result keeps the error. -/
theorem applyChain_error (ops : List (RouteSegment → BuildResult)) (e : RouteError) :
    applyChain ops (.error e) = .error e := by
  induction ops with
  | nil => rfl
  | cons op rest ih =>
    rw [applyChain, List.foldl_cons]
    exact ih

/-- Chains split at a list append. -/
theorem applyChain_append (ops1 ops2 : List (RouteSegment → BuildResult))
    (r : BuildResult) :
    applyChain (ops1 ++ ops2) r = applyChain ops2 (applyChain ops1 r) := by
  rw [applyChain, applyChain, applyChain, List.foldl_append]

/-- C9: fluent calls are `Result`-valued and chain on a `Result`: if a
prefix of the chain succeeds and the next call fails, every later call
keeps that first error, so the final result observes it. -/
theorem chain_propagates_first_error (ops1 ops2 : List (RouteSegment → BuildResult))
    (s t : RouteSegment) (op : RouteSegment → BuildResult) (e : RouteError)
    (h1 : applyChain ops1 (.ok s) = .ok t) (h2 : op t = .error e) :
    applyChain (ops1 ++ op :: ops2) (.ok s) = .error e := by
  rw [applyChain_append, h1]
  calc applyChain (op :: ops2) (.ok t) = applyChain ops2 (op t) := rfl
    _ = applyChain ops2 (.error e) := by rw [h2]
    _ = .error e := applyChain_error ops2 e

/-- C9, witness: a `get`, then a failing call, then a `post`; the chain
returns the first error. -/
theorem chain_propagates_first_error_witness :
    applyChain ([fun r => r.get 1]
        ++ (fun _ => .error (.duplicateName "n")) :: [fun r => r.post 2])
      (.ok root) = .error (.duplicateName "n") :=
  chain_propagates_first_error [fun r => r.get 1] [fun r => r.post 2]
    root (.node [] [] [(.get, 1)] none [])
    (fun _ => .error (.duplicateName "n")) (.duplicateName "n") rfl rfl

/-- C7: whenever a route name already resolves anywhere in the index —
however many registrations happened in between — registering it again
fails with `DuplicateNameError` for that name, never returns a new
index, and the existing entry is still the one the index resolves: no
silent overwrite. -/
theorem registerName_rejects_duplicate (rr : ReverseRouter) (n : String)
    (t0 t2 : Template) (h : lookupName rr n = some t0) :
    registerName rr n t2 = .error (.duplicateName n)
    ∧ (∀ rr', registerName rr n t2 ≠ .ok rr')
    ∧ lookupName rr n = some t0 := by
  have h1 : registerName rr n t2 = .error (.duplicateName n) := by
    rw [registerName, h]
  refine ⟨h1, ?_, h⟩
  intro rr' hok
  rw [h1] at hok
  cases hok

/-- C7, witness: the name `r` was registered, then `s` was registered on
top of it; re-registering `r` fails with `DuplicateNameError` and `r`
still resolves to its original template. -/
theorem registerName_rejects_duplicate_witness :
    registerName [("s", []), ("r", [TComponent.literal "a"])] "r" []
        = .error (.duplicateName "r")
    ∧ (∀ rr', registerName [("s", []), ("r", [TComponent.literal "a"])] "r" [] ≠ .ok rr')
    ∧ lookupName [("s", []), ("r", [TComponent.literal "a"])] "r"
        = some [TComponent.literal "a"] :=
  registerName_rejects_duplicate [("s", []), ("r", [TComponent.literal "a"])] "r"
    [TComponent.literal "a"] [] (by decide)

/-- C4: flattening `root().get(h1).post(h2)` yields exactly two
descriptors, both with absolute path `"/"`, one `GET` and one `POST`,
each with an empty middleware chain. -/
theorem build_root_get_post :
    (root.get 1 >>= fun r => r.post 2).map RouteSegment.build
      = .ok [⟨"/", some .get, [], 1⟩, ⟨"/", some .post, [], 2⟩] := by
  show Except.map RouteSegment.build (root.get 1 >>= fun r => r.post 2)
      = .ok [⟨"/", some .get, [], 1⟩, ⟨"/", some .post, [], 2⟩]
  have hstep : (root.get 1 >>= fun r => r.post 2)
      = .ok (.node [] [] [(.get, 1), (.post, 2)] none []) := rfl
  rw [hstep]
  show Except.ok (RouteSegment.build (.node [] [] [(.get, 1), (.post, 2)] none []))
      = .ok [⟨"/", some .get, [], 1⟩, ⟨"/", some .post, [], 2⟩]
  rw [RouteSegment.build, flattenFrom_node]
  simp [render, renderChars, joinSep]

/-! ## Path model lemmas -/

theorem splitSlash_ne_nil (l : List Char) : splitSlash l ≠ [] := by
  induction l with
  | nil => simp [splitSlash]
  | cons c rest ih =>
    rw [splitSlash]
    split
    · simp
    · split <;> simp

theorem splitSlash_append (a b : List Char) :
    splitSlash (a ++ '/' :: b) = splitSlash a ++ splitSlash b := by
  induction a with
  | nil => simp [splitSlash]
  | cons x xs ih =>
    rw [List.cons_append, splitSlash, splitSlash]
    by_cases h : x = '/'
    · rw [if_pos h, if_pos h, ih, List.cons_append]
    · rw [if_neg h, if_neg h, ih]
      cases hs : splitSlash xs with
      | nil => exact absurd hs (splitSlash_ne_nil xs)
      | cons p ps => simp

theorem splitSlash_no_slash (l : List Char) : '/' ∉ l → splitSlash l = [l] := by
  induction l with
  | nil => intro _; rfl
  | cons x xs ih =>
    intro h
    have hx : x ≠ '/' := fun hx => h (List.mem_cons.mpr (Or.inl hx.symm))
    have hxs : '/' ∉ xs := fun hm => h (List.mem_cons_of_mem x hm)
    rw [splitSlash, if_neg hx, ih hxs]

theorem mem_splitSlash_no_slash (l : List Char) (c : List Char)
    (hc : c ∈ splitSlash l) : '/' ∉ c := by
  induction l generalizing c with
  | nil =>
    simp only [splitSlash, List.mem_singleton] at hc
    simp [hc]
  | cons x xs ih =>
    rw [splitSlash] at hc
    by_cases h : x = '/'
    · rw [if_pos h] at hc
      rcases List.mem_cons.mp hc with h1 | h1
      · simp [h1]
      · exact ih c h1
    · rw [if_neg h] at hc
      cases hs : splitSlash xs with
      | nil => exact absurd hs (splitSlash_ne_nil xs)
      | cons p ps =>
        rw [hs] at hc
        rcases List.mem_cons.mp hc with h1 | h1
        · subst h1
          intro hm
          rcases List.mem_cons.mp hm with h2 | h2
          · exact h h2.symm
          · exact ih p (hs ▸ List.mem_cons_self p ps) h2
        · exact ih c (hs ▸ List.mem_cons_of_mem p h1)

theorem parseFrag_append (a b : List Char) :
    parseFrag (a ++ '/' :: b) = parseFrag a ++ parseFrag b := by
  rw [parseFrag, parseFrag, parseFrag, splitSlash_append, List.filter_append]

theorem parseFrag_nil : parseFrag [] = [] := rfl

theorem parseFrag_slash_cons (b : List Char) : parseFrag ('/' :: b) = parseFrag b := by
  have h := parseFrag_append [] b
  simpa using h

theorem parseFrag_trailing_slash (a : List Char) : parseFrag (a ++ ['/']) = parseFrag a := by
  have h := parseFrag_append a []
  simpa [parseFrag_nil] using h

theorem parseFrag_wf (s : List Char) (c : Component) (hc : c ∈ parseFrag s) :
    c ≠ [] ∧ '/' ∉ c := by
  rw [parseFrag, List.mem_filter] at hc
  refine ⟨by simpa using hc.2, mem_splitSlash_no_slash s c hc.1⟩

theorem parseFrag_no_slash_nonempty (c : List Char) (h0 : c ≠ []) (h1 : '/' ∉ c) :
    parseFrag c = [c] := by
  rw [parseFrag, splitSlash_no_slash c h1]
  simp [h0]

/-- Two adjacent rendered characters are never both the separator. -/
def NoAdjSep (x y : Char) : Prop := ¬(x = '/' ∧ y = '/')

theorem mem_of_headOpt {α : Type _} (l : List α) (x : α) (h : l.head? = some x) :
    x ∈ l := by
  cases l with
  | nil => cases h
  | cons a as =>
    rw [List.head?_cons] at h
    injection h with h
    exact h ▸ List.mem_cons_self a as

theorem mem_of_getLastOpt {α : Type _} (l : List α) (x : α) (h : l.getLast? = some x) :
    x ∈ l := by
  induction l with
  | nil => cases h
  | cons a as ih =>
    cases as with
    | nil =>
      rw [List.getLast?_singleton] at h
      injection h with h
      exact h ▸ List.mem_cons_self a []
    | cons b bs =>
      rw [List.getLast?_cons_cons] at h
      exact List.mem_cons_of_mem a (ih h)

theorem getLast?_cons_of_ne {α : Type _} (a : α) (l : List α) (h : l ≠ []) :
    (a :: l).getLast? = l.getLast? := by
  cases l with
  | nil => exact absurd rfl h
  | cons b bs => exact List.getLast?_cons_cons

theorem chain_of_no_slash (c : List Char) (h : '/' ∉ c) : List.Chain' NoAdjSep c := by
  induction c with
  | nil => exact List.chain'_nil
  | cons x xs ih =>
    have hx : x ≠ '/' := fun hx => h (List.mem_cons.mpr (Or.inl hx.symm))
    have hxs : '/' ∉ xs := fun hm => h (List.mem_cons_of_mem x hm)
    refine List.chain'_cons'.mpr ⟨fun y _ => fun hp => hx hp.1, ih hxs⟩

theorem joinSep_ne_nil (comps : List Component)
    (h0 : comps ≠ []) (h : ∀ c ∈ comps, c ≠ [] ∧ '/' ∉ c) : joinSep comps ≠ [] := by
  cases comps with
  | nil => exact absurd rfl h0
  | cons c cs =>
    cases cs with
    | nil =>
      rw [joinSep]
      exact (h c (List.mem_cons_self c [])).1
    | cons c2 cs' =>
      rw [joinSep]
      have hc : c ≠ [] := (h c (List.mem_cons_self c _)).1
      simp [hc]

/-- Structural facts about the separator-interleaved rendering of a list
of well-formed components: no two adjacent separators, and neither the
first nor the last character is a separator. -/
theorem joinSep_props (comps : List Component)
    (h : ∀ c ∈ comps, c ≠ [] ∧ '/' ∉ c) :
    List.Chain' NoAdjSep (joinSep comps)
    ∧ (∀ x, (joinSep comps).head? = some x → x ≠ '/')
    ∧ (∀ x, (joinSep comps).getLast? = some x → x ≠ '/') := by
  induction comps with
  | nil =>
    refine ⟨List.chain'_nil, ?_, ?_⟩ <;> intro x hx <;> cases hx
  | cons c cs ih =>
    have hc : c ≠ [] ∧ '/' ∉ c := h c (List.mem_cons_self c cs)
    cases cs with
    | nil =>
      rw [joinSep]
      refine ⟨chain_of_no_slash c hc.2, ?_, ?_⟩
      · intro x hx heq
        exact hc.2 (heq ▸ mem_of_headOpt c x hx)
      · intro x hx heq
        exact hc.2 (heq ▸ mem_of_getLastOpt c x hx)
    | cons c2 cs' =>
      have hcs : ∀ d ∈ c2 :: cs', d ≠ [] ∧ '/' ∉ d :=
        fun d hd => h d (List.mem_cons_of_mem c hd)
      have ihcs := ih hcs
      have hjs : joinSep (c2 :: cs') ≠ [] := joinSep_ne_nil _ (by simp) hcs
      rw [joinSep]
      refine ⟨?_, ?_, ?_⟩
      · refine List.chain'_append.mpr ⟨chain_of_no_slash c hc.2, ?_, ?_⟩
        · refine List.chain'_cons'.mpr ⟨?_, ihcs.1⟩
          intro y hy hp
          exact ihcs.2.1 y hy hp.2
        · intro x hx y hy hp
          exact hc.2 (hp.1 ▸ mem_of_getLastOpt c x hx)
      · intro x hx
        rw [List.head?_append] at hx
        cases hhc : c.head? with
        | none =>
          exact absurd (List.head?_eq_none_iff.mp hhc) hc.1
        | some z =>
          rw [hhc, Option.or_some] at hx
          injection hx with hx
          intro heq
          exact hc.2 (heq ▸ hx ▸ mem_of_headOpt c z hhc)
      · intro x hx
        rw [List.getLast?_append, getLast?_cons_of_ne '/' _ hjs] at hx
        cases hjl : (joinSep (c2 :: cs')).getLast? with
        | none =>
          exact absurd (List.getLast?_eq_none_iff.mp hjl) hjs
        | some z =>
          rw [hjl, Option.or_some] at hx
          injection hx with hx
          exact hx ▸ ihcs.2.2 z hjl

/-- Rendering then re-parsing a list of well-formed components is the
identity: normalization is idempotent. -/
theorem parseFrag_joinSep (comps : List Component)
    (h : ∀ c ∈ comps, c ≠ [] ∧ '/' ∉ c) :
    parseFrag (joinSep comps) = comps := by
  induction comps with
  | nil => rfl
  | cons c cs ih =>
    have hc : c ≠ [] ∧ '/' ∉ c := h c (List.mem_cons_self c cs)
    cases cs with
    | nil =>
      rw [joinSep]
      exact parseFrag_no_slash_nonempty c hc.1 hc.2
    | cons c2 cs' =>
      have hcs : ∀ d ∈ c2 :: cs', d ≠ [] ∧ '/' ∉ d :=
        fun d hd => h d (List.mem_cons_of_mem c hd)
      rw [joinSep, parseFrag_append, parseFrag_no_slash_nonempty c hc.1 hc.2, ih hcs]
      rfl

/-- C6: path joining normalizes: a trailing separator on the left
fragment and a leading one on the right are absorbed (`join("a/", "/b")
= join("a", "b")`); joining is associative with respect to separator
concatenation; normalization is idempotent; and every joined fragment
renders with single separators and no trailing separator, except for the
root path `"/"` alone. -/
theorem path_join_normalized :
    (∀ (p : List Component) (a b : List Char),
        joinFrag (joinFrag p (a ++ ['/'])) ('/' :: b) = joinFrag (joinFrag p a) b)
    ∧ (∀ (p : List Component) (a b : List Char),
        joinFrag (joinFrag p a) b = joinFrag p (a ++ '/' :: b))
    ∧ (∀ s : List Char, parseFrag (renderChars (parseFrag s)) = parseFrag s)
    ∧ (∀ s : List Char, List.Chain' NoAdjSep (renderChars (parseFrag s)))
    ∧ (∀ s : List Char, renderChars (parseFrag s) = ['/']
        ∨ ∀ x, (renderChars (parseFrag s)).getLast? = some x → x ≠ '/') := by
  have hwf : ∀ s : List Char, ∀ c ∈ parseFrag s, c ≠ [] ∧ '/' ∉ c :=
    fun s c hc => parseFrag_wf s c hc
  refine ⟨?_, ?_, ?_, ?_, ?_⟩
  · intro p a b
    rw [joinFrag, joinFrag, joinFrag, joinFrag, parseFrag_trailing_slash,
      parseFrag_slash_cons]
  · intro p a b
    rw [joinFrag, joinFrag, joinFrag, parseFrag_append, List.append_assoc]
  · intro s
    rw [renderChars, parseFrag_slash_cons]
    exact parseFrag_joinSep (parseFrag s) (hwf s)
  · intro s
    rw [renderChars]
    have hp := joinSep_props (parseFrag s) (hwf s)
    refine List.chain'_cons'.mpr ⟨?_, hp.1⟩
    intro y hy hpair
    exact hp.2.1 y hy hpair.2
  · intro s
    cases hps : parseFrag s with
    | nil => left; rfl
    | cons c cs =>
      right
      intro x hx
      have hwf' : ∀ d ∈ c :: cs, d ≠ [] ∧ '/' ∉ d := hps ▸ hwf s
      have hjs : joinSep (c :: cs) ≠ [] := joinSep_ne_nil _ (by simp) hwf'
      rw [renderChars, getLast?_cons_of_ne '/' _ hjs] at hx
      exact (joinSep_props (c :: cs) hwf').2.2 x hx

/-- C6, witness: concrete instances of `path_join_normalized`. -/
theorem path_join_normalized_witness :
    joinFrag (joinFrag [] (['a'] ++ ['/'])) ('/' :: ['b']) = joinFrag (joinFrag [] ['a']) ['b']
    ∧ ('a' : Char) ≠ '/' :=
  ⟨path_join_normalized.1 [] ['a'] ['b'],
    ((path_join_normalized.2.2.2.2 ['a']).resolve_left (by decide)) 'a' (by decide)⟩

/-! ## Reverse-routing lemmas -/

/-- The substituted component texts: each placeholder replaced by its
parameter value, literals kept unchanged. -/
def substDefault (params : Params) (t : Template) : List String :=
  t.map fun c =>
    match c with
    | .literal s => s
    | .param k => (lookupParam params k).getD ""

/-- The leftmost placeholder of the template with no key in `params`. -/
def firstMissing (params : Params) (t : Template) : Option String :=
  (placeholdersOf t).find? fun k => (lookupParam params k).isNone

theorem substComponents_ok_of_covered (params : Params) (t : Template)
    (h : ∀ k ∈ placeholdersOf t, (lookupParam params k).isSome) :
    substComponents params t = .ok (substDefault params t) := by
  induction t with
  | nil => rfl
  | cons c rest ih =>
    cases c with
    | literal s =>
      have hrest : ∀ k ∈ placeholdersOf rest, (lookupParam params k).isSome := by
        intro k hk
        exact h k (by simp [placeholdersOf, List.filterMap_cons] at hk ⊢; exact hk)
      rw [substComponents, ih hrest]
      rfl
    | param key =>
      have hkey : (lookupParam params key).isSome := by
        refine h key ?_
        simp [placeholdersOf, List.filterMap_cons]
      have hrest : ∀ k ∈ placeholdersOf rest, (lookupParam params k).isSome := by
        intro k hk
        refine h k ?_
        simp [placeholdersOf, List.filterMap_cons] at hk ⊢
        exact Or.inr hk
      cases hv : lookupParam params key with
      | none => rw [hv] at hkey; cases hkey
      | some v =>
        rw [substComponents, hv, ih hrest]
        simp only [substDefault, List.map_cons, hv]
        rfl

theorem substComponents_error_of_missing (params : Params) (t : Template) (k : String)
    (h : firstMissing params t = some k) :
    substComponents params t = .error (.missingParameter k) := by
  induction t with
  | nil => cases h
  | cons c rest ih =>
    cases c with
    | literal s =>
      have h' : firstMissing params rest = some k := by
        rw [firstMissing] at h ⊢
        simpa [placeholdersOf, List.filterMap_cons] using h
      rw [substComponents, ih h']
      rfl
    | param key =>
      rw [firstMissing, placeholdersOf, List.filterMap_cons] at h
      simp only [List.find?_cons] at h
      cases hv : lookupParam params key with
      | none =>
        rw [hv] at h
        simp only [Option.isNone_none] at h
        injection h with h
        rw [substComponents, hv, h]
      | some v =>
        rw [hv] at h
        simp only [Option.isNone_some] at h
        have h' : firstMissing params rest = some k := by
          rw [firstMissing]
          exact h
        rw [substComponents, hv, ih h']
        rfl

theorem covered_of_firstMissing_none (params : Params) (t : Template)
    (h : firstMissing params t = none) :
    ∀ k ∈ placeholdersOf t, (lookupParam params k).isSome := by
  intro k hk
  have := List.find?_eq_none.mp h k hk
  cases hv : lookupParam params k with
  | none => rw [hv] at this; simp at this
  | some v => rfl

/-- C8: for a registered route name, `url_for` succeeds exactly when
every placeholder of the template has a key in the parameter map, and
then returns the template with each placeholder substituted; when a
placeholder's key is absent, it fails with `MissingParameterError`
naming the leftmost such key; keys not referenced by the template
never cause an error. -/
theorem urlFor_semantics (rr : ReverseRouter) (n : String) (t : Template)
    (params : Params) (h : lookupName rr n = some t) :
    ((∀ k ∈ placeholdersOf t, (lookupParam params k).isSome) →
        urlFor rr n params
          = .ok ("/" ++ String.intercalate "/" (substDefault params t)))
    ∧ ((∃ out, urlFor rr n params = .ok out) ↔
        ∀ k ∈ placeholdersOf t, (lookupParam params k).isSome)
    ∧ (∀ k, firstMissing params t = some k →
        urlFor rr n params = .error (.missingParameter k)
        ∧ k ∈ placeholdersOf t ∧ lookupParam params k = none) := by
  have hurl : urlFor rr n params
      = (substComponents params t).map fun comps => "/" ++ String.intercalate "/" comps := by
    rw [urlFor, h]
  have hok : (∀ k ∈ placeholdersOf t, (lookupParam params k).isSome) →
      urlFor rr n params
        = .ok ("/" ++ String.intercalate "/" (substDefault params t)) := by
    intro hcov
    rw [hurl, substComponents_ok_of_covered params t hcov]
    rfl
  have herr : ∀ k, firstMissing params t = some k →
      urlFor rr n params = .error (.missingParameter k)
      ∧ k ∈ placeholdersOf t ∧ lookupParam params k = none := by
    intro k hk
    have hmem := List.mem_of_find?_eq_some hk
    have hnone := List.find?_some hk
    refine ⟨?_, hmem, ?_⟩
    · rw [hurl, substComponents_error_of_missing params t k hk]
      rfl
    · exact Option.isNone_iff_eq_none.mp hnone
  refine ⟨hok, ?_, herr⟩
  constructor
  · rintro ⟨out, hout⟩
    cases hfm : firstMissing params t with
    | none => exact covered_of_firstMissing_none params t hfm
    | some k =>
      rw [(herr k hfm).1] at hout
      cases hout
  · intro hcov
    exact ⟨_, hok hcov⟩

/-- C8, witness: concrete instance of `urlFor_semantics`: a template
`/a/:id` with an `id` parameter and an unrelated extra key succeeds;
dropping `id` fails naming `id`. -/
theorem urlFor_semantics_witness :
    urlFor [("r", [TComponent.literal "a", TComponent.param "id"])] "r"
        [("x", "9"), ("id", "42")] = .ok "/a/42"
    ∧ urlFor [("r", [TComponent.literal "a", TComponent.param "id"])] "r"
        [("x", "9")] = .error (.missingParameter "id") := by
  have h1 := urlFor_semantics [("r", [TComponent.literal "a", TComponent.param "id"])]
    "r" [TComponent.literal "a", TComponent.param "id"] [("x", "9"), ("id", "42")] rfl
  have h2 := urlFor_semantics [("r", [TComponent.literal "a", TComponent.param "id"])]
    "r" [TComponent.literal "a", TComponent.param "id"] [("x", "9")] rfl
  refine ⟨?_, ?_⟩
  · have := h1.1 (by decide)
    rw [this]
    rfl
  · exact (h2.2.2 "id" (by decide)).1

/-! ## The middleware-inheritance invariant of the flattener -/

/-- `Descends root trail node`: `node` lies in the tree rooted at
`root`, and `trail` is the list of the own-middleware lists of the
strict ancestors passed on the way, root first. -/
inductive Descends : RouteSegment → List (List Nat) → RouteSegment → Prop where
  | refl (n : RouteSegment) : Descends n [] n
  | step {n c m : RouteSegment} {trail : List (List Nat)}
      (hc : c ∈ n.children) (hd : Descends c trail m) :
      Descends n (n.middleware :: trail) m

/-- Every descriptor emitted while flattening a subtree carries the
accumulated middleware, then the strict ancestors' middleware inside
the subtree, then the emitting node's own middleware. -/
theorem flattenFrom_middleware_aux : ∀ (k : Nat) (n : RouteSegment), sizeOf n ≤ k →
    ∀ (acc : List Component) (mws : List Nat) (d : EndpointDescriptor),
    d ∈ flattenFrom acc mws n →
    ∃ node trail, Descends n trail node
      ∧ d.middleware = mws ++ trail.flatten ++ node.middleware := by
  intro k
  induction k with
  | zero =>
    intro n hn
    cases n with
    | node f own eps ca ch => simp at hn
  | succ k ih =>
    intro n hn acc mws d hd
    cases n with
    | node f own eps ca ch =>
      rw [flattenFrom_node] at hd
      rcases List.mem_append.mp hd with hd12 | hd3
      · rcases List.mem_append.mp hd12 with hd1 | hd2
        · rcases List.mem_map.mp hd1 with ⟨me, _, hme⟩
          refine ⟨.node f own eps ca ch, [], Descends.refl _, ?_⟩
          rw [← hme]
          simp [RouteSegment.middleware]
        · rcases List.mem_map.mp hd2 with ⟨e, _, hme⟩
          refine ⟨.node f own eps ca ch, [], Descends.refl _, ?_⟩
          rw [← hme]
          simp [RouteSegment.middleware]
      · rcases List.mem_flatten.mp hd3 with ⟨l, hl, hdl⟩
        rcases List.mem_map.mp hl with ⟨c, hc, hcl⟩
        have hsz : sizeOf c ≤ k := by
          have h1 := List.sizeOf_lt_of_mem hc
          have h2 : sizeOf (RouteSegment.node f own eps ca ch)
              = 1 + sizeOf f + sizeOf own + sizeOf eps + sizeOf ca + sizeOf ch := by
            simp
          omega
        rw [← hcl] at hdl
        rcases ih c hsz (acc ++ f) (mws ++ own) d hdl with ⟨node, trail, hdesc, hmw⟩
        refine ⟨node, own :: trail, ?_, ?_⟩
        · have := Descends.step (n := .node f own eps ca ch) hc hdesc
          simpa [RouteSegment.middleware] using this
        · rw [hmw, List.flatten_cons]
          simp [List.append_assoc]

/-- C5: every descriptor `build()` emits belongs to some node of the
tree, and its middleware chain is exactly the concatenation of every
ancestor's own middleware, root first, followed by that node's own
middleware; in particular the accumulated middleware of any ancestor
chain is a prefix of it. -/
theorem build_middleware_chain (t : RouteSegment) (d : EndpointDescriptor)
    (h : d ∈ t.build) :
    ∃ node trail, Descends t trail node
      ∧ d.middleware = trail.flatten ++ node.middleware
      ∧ ∀ t1 t2, trail = t1 ++ t2 →
          ∃ rest, d.middleware = t1.flatten ++ rest := by
  obtain ⟨node, trail, hdesc, hmw⟩ :=
    flattenFrom_middleware_aux (sizeOf t) t le_rfl [] [] d h
  have hmw' : d.middleware = trail.flatten ++ node.middleware := by simpa using hmw
  refine ⟨node, trail, hdesc, hmw', ?_⟩
  intro t1 t2 ht
  refine ⟨t2.flatten ++ node.middleware, ?_⟩
  rw [hmw', ht, List.flatten_append, List.append_assoc]

/-- C5, witness: a two-level tree, middleware `5` at the root and `7`
on the child that binds GET; the emitted descriptor's chain is
`[5, 7]`. -/
theorem build_middleware_chain_witness :
    ∃ node trail,
      Descends (.node [] [5] [] none [.node [['c']] [7] [(.get, 1)] none []]) trail node
      ∧ (EndpointDescriptor.mk "/c" (some .get) [5, 7] 1).middleware
          = trail.flatten ++ node.middleware
      ∧ ∀ t1 t2, trail = t1 ++ t2 →
          ∃ rest, (EndpointDescriptor.mk "/c" (some .get) [5, 7] 1).middleware
            = t1.flatten ++ rest := by
  refine build_middleware_chain _ _ ?_
  have hb : (RouteSegment.node [] [5] [] none
        [.node [['c']] [7] [(.get, 1)] none []]).build
      = [EndpointDescriptor.mk "/c" (some .get) [5, 7] 1] := by
    rw [RouteSegment.build, flattenFrom_node]
    simp [flattenFrom_node, render, renderChars, joinSep]
  rw [hb]
  exact List.mem_singleton.mpr rfl

end TideRoutes
